import Mathlib

/-!
Verification of the InkyPi stock plugin chart-rendering core
(`src/plugins/stock/stock.py`) against its natural-language specification.

The Python code works on IEEE floats; we embed its arithmetic in `ℚ`
(exact rationals), the standard idealisation for this kind of numeric
pipeline.  Python's `int(...)` truncation is modelled by `Int.floor`
(`pyInt`); every call site applies it to a nonnegative quantity, where
truncation and floor agree.  Decimal string formatting (`f"{x:.2f}"`) is
abstracted to `toString`: no claim depends on the rendered digits, only
on which primitives are emitted, with which colors and coordinates.
-/

/-- RGB color triple, as in the Python code's bare tuples. -/
abbrev Color := ℤ × ℤ × ℤ

def c_bg : Color := (255, 255, 255)

def c_text_main : Color := (0, 0, 0)

def c_dim : Color := (0, 0, 0)

def c_grid : Color := (0, 0, 255)

def c_up : Color := (0, 255, 0)

def c_down : Color := (255, 0, 0)

/-- Python `int(...)` on a nonnegative rational: floor. -/
def pyInt (q : ℚ) : ℤ := ⌊q⌋

/-- `Stock.map_range` (stock.py lines 61-64): linear interpolation with a
midpoint fallback when the input range is degenerate.  The code's guard is
written `in_max == in_min`. -/
def map_range (value in_min in_max out_min out_max : ℚ) : ℚ :=
  if in_max = in_min then (out_min + out_max) / 2
  else (value - in_min) * (out_max - out_min) / (in_max - in_min) + out_min

/-- The Range Mapper contract exactly as worded in spec §4.1 (guard written
`in_min == in_max`), for the refinement comparison of C5. -/
def map_range_spec (value in_min in_max out_min out_max : ℚ) : ℚ :=
  if in_min = in_max then (out_min + out_max) / 2
  else (value - in_min) * (out_max - out_min) / (in_max - in_min) + out_min

/-- Crossing-point computation of the split branch (stock.py lines 233-240):
interpolated intersection with the baseline, with a defensive fallback
`x_cross = x1, y_cross = y1` when `y2 == y1`. -/
def crossingPoint (x1 y1 x2 y2 y_base : ℚ) : ℚ × ℚ :=
  if y2 ≠ y1 then (x1 + (x2 - x1) * ((y_base - y1) / (y2 - y1)), y_base)
  else (x1, y1)

/-- Per-endpoint color in the split branch (stock.py lines 243-245):
`c_up if y < y_base else c_down`. -/
def endColor (y y_base : ℚ) : Color :=
  if y < y_base then c_up else c_down

/-- A colored segment: first point, second point, color. -/
abbrev Seg := (ℚ × ℚ) × (ℚ × ℚ) × Color

/-- Segment Classifier & Splitter for one adjacent pair
(stock.py lines 220-248): entirely-bullish, entirely-bearish, or split at
the interpolated crossing point. -/
def classifySegment (x1 y1 x2 y2 y_base : ℚ) : List Seg :=
  if y1 ≤ y_base ∧ y2 ≤ y_base then
    [((x1, y1), (x2, y2), c_up)]
  else if y1 ≥ y_base ∧ y2 ≥ y_base then
    [((x1, y1), (x2, y2), c_down)]
  else
    [((x1, y1), crossingPoint x1 y1 x2 y2 y_base, endColor y1 y_base),
     (crossingPoint x1 y1 x2 y2 y_base, (x2, y2), endColor y2 y_base)]

/-- `change_amt = current_price - prev_close` (stock.py line 103). -/
def changeAmt (price prev_close : ℚ) : ℚ := price - prev_close

/-- `change_pct = (change_amt / prev_close) * 100 if prev_close else 0`
(stock.py line 104); Python truthiness of a number is `≠ 0`. -/
def changePct (price prev_close : ℚ) : ℚ :=
  if prev_close ≠ 0 then changeAmt price prev_close / prev_close * 100 else 0

/-- Python `min` over a nonempty list (fold of binary `min`); `0` on the
empty list, which every call site guards against. -/
def listMin : List ℚ → ℚ
  | [] => 0
  | [a] => a
  | a :: b :: t => min a (listMin (b :: t))

/-- Python `max` over a nonempty list; `0` on the empty list (guarded). -/
def listMax : List ℚ → ℚ
  | [] => 0
  | [a] => a
  | a :: b :: t => max a (listMax (b :: t))

/-- Python `l[-1]`; `default` on the empty list (guarded at call sites). -/
def pyLast {α : Type} [Inhabited α] : List α → α
  | [] => default
  | [a] => a
  | _ :: b :: t => pyLast (b :: t)

/-- Python `enumerate`, starting at index `n`. -/
def pyEnumFrom {α : Type} (n : ℕ) : List α → List (ℕ × α)
  | [] => []
  | a :: t => (n, a) :: pyEnumFrom (n + 1) t

/-- Python `enumerate`. -/
def pyEnum {α : Type} (l : List α) : List (ℕ × α) := pyEnumFrom 0 l

/-- The record returned by `Stock.get_stock_data` (stock.py 46-54).  The
Python dict key `open` is a Lean keyword, hence `openPrice`. -/
structure StockData where
  price : ℚ
  prev_close : ℚ
  openPrice : ℚ
  high : ℚ
  low : ℚ
  volume : ℚ
  history : List ℚ
deriving DecidableEq

/-- Series Normalizer (stock.py 188-189): the strict value range, forced to
include `prev_close`. -/
def normalizeRange (history : List ℚ) (prev_close : ℚ) : ℚ × ℚ :=
  (min (listMin history) prev_close, max (listMax history) prev_close)

/-- `chart_x_start = int(width * 0.03)` (stock.py 179). -/
def chartXStart (width : ℤ) : ℚ := pyInt ((width : ℚ) * (3 / 100))

/-- `chart_x_end = width - int(width * 0.03)` (stock.py 180). -/
def chartXEnd (width : ℤ) : ℚ := (width : ℚ) - pyInt ((width : ℚ) * (3 / 100))

/-- `chart_y_start = int(height * 0.625)` (stock.py 181). -/
def chartYStart (height : ℤ) : ℚ := pyInt ((height : ℚ) * (625 / 1000))

/-- `chart_y_end = height - int(height * 0.08)` (stock.py 182). -/
def chartYEnd (height : ℤ) : ℚ := (height : ℚ) - pyInt ((height : ℚ) * (8 / 100))

/-- Baseline Locator (stock.py 196): the baseline pixel row; note the
inverted output range (`chart_y_end` first). -/
def baselineY (prev_close min_p max_p cys cye : ℚ) : ℚ :=
  map_range prev_close min_p max_p cye cys

/-- Point Projector (stock.py 202-207): index over the horizontal extent,
price over the normalized vertical range (inverted). -/
def projectPoints (history : List ℚ) (min_p max_p cxs cxe cys cye : ℚ) :
    List (ℚ × ℚ) :=
  (pyEnum history).map fun ip =>
    (map_range (ip.1 : ℚ) 0 ((history.length : ℚ) - 1) cxs cxe,
     map_range ip.2 min_p max_p cye cys)

/-- Segment Classifier over the whole point list (stock.py 212-248): one
classification per adjacent pair, in order. -/
def segmentsOf (points : List (ℚ × ℚ)) (y_base : ℚ) : List Seg :=
  (points.zip points.tail).flatMap fun pr =>
    classifySegment pr.1.1 pr.1.2 pr.2.1 pr.2.2 y_base

/-- End-of-series marker color (stock.py 255):
`c_up if last_price >= prev_close else c_down`. -/
def dotColor (history : List ℚ) (prev_close : ℚ) : Color :=
  if pyLast history ≥ prev_close then c_up else c_down

/-- Drawing primitives handed to the external canvas (fonts elided). -/
inductive DrawPrim where
  | fill (color : Color)
  | line (p1 p2 : ℚ × ℚ) (color : Color) (lineWidth : ℚ)
  | text (pos : ℚ × ℚ) (s : String) (color : Color)
  | ellipse (bounds : ℚ × ℚ × ℚ × ℚ) (color : Color)
deriving DecidableEq

def DrawPrim.isEllipse : DrawPrim → Bool
  | .ellipse _ _ => true
  | _ => false

def DrawPrim.isLine : DrawPrim → Bool
  | .line _ _ _ _ => true
  | _ => false

/-- Chart Composer (stock.py 178-258): the ordered drawing primitives of the
chart section; empty when the history has fewer than two points. -/
def chartPrims (history : List ℚ) (prev_close : ℚ) (width height : ℤ) :
    List DrawPrim :=
  if 1 < history.length then
    let cxs := chartXStart width
    let cxe := chartXEnd width
    let cys := chartYStart height
    let cye := chartYEnd height
    let min_p := (normalizeRange history prev_close).1
    let max_p := (normalizeRange history prev_close).2
    let y_base := baselineY prev_close min_p max_p cys cye
    let points := projectPoints history min_p max_p cxs cxe cys cye
    let line_width : ℤ := max 2 (pyInt ((width : ℚ) * (5 / 1000)))
    let last_pt := pyLast points
    let r : ℤ := max 4 (pyInt ((width : ℚ) * (1 / 100)))
    [DrawPrim.text (cxs, cys - (pyInt ((height : ℚ) * (5 / 100)) : ℤ))
       ("High: " ++ toString max_p) c_grid,
     DrawPrim.text (cxs, cye + 5) ("Low: " ++ toString min_p) c_grid,
     DrawPrim.line (cxs, y_base) (cxe, y_base) c_grid 2,
     DrawPrim.text (cxe - (pyInt ((width : ℚ) * (75 / 1000)) : ℤ), y_base - 20)
       "Prev" c_grid]
    ++ (segmentsOf points y_base).map
         (fun s => DrawPrim.line s.1 s.2.1 s.2.2 (line_width : ℚ))
    ++ [DrawPrim.ellipse
          (last_pt.1 - (r : ℚ), last_pt.2 - (r : ℚ),
           last_pt.1 + (r : ℚ), last_pt.2 + (r : ℚ))
          (dotColor history prev_close)]
  else []

/-- Rendering entry point `Stock.generate_image` (stock.py 66-260) at the
drawing-primitive level: background fill, then either the fallback error
text (data unavailable), or header, details column and chart.  `time_width`
stands in for the font-metric width of the timestamp (external font
subsystem); text strings carry `toString` in place of decimal formatting. -/
def generateImage (data : Option StockData) (width height : ℤ)
    (ticker now_str : String) (time_width : ℚ) : List DrawPrim :=
  match data with
  | none =>
      [DrawPrim.fill c_bg,
       DrawPrim.text (20, ((height / 2 : ℤ) : ℚ))
         ("Failed to fetch data for " ++ ticker) c_down]
  | some d =>
      let current_price := d.price
      let prev_close := d.prev_close
      let change_amt := changeAmt current_price prev_close
      let change_pct := changePct current_price prev_close
      let c_accent := if 0 ≤ change_amt then c_up else c_down
      let margin_x : ℚ := (pyInt ((width : ℚ) * (25 / 1000)) : ℤ)
      let margin_y : ℚ := (pyInt ((height : ℚ) * (4 / 100)) : ℤ)
      let sign := if 0 ≤ change_amt then "+" else ""
      let change_str :=
        sign ++ toString change_amt ++ " (" ++ sign ++ toString change_pct ++ "%)"
      let col_x_start : ℚ := (pyInt ((width : ℚ) * (625 / 1000)) : ℤ)
      let details_y_start : ℚ := (pyInt ((height : ℚ) * (18 / 100)) : ℤ)
      let details_y_end : ℚ := (pyInt ((height : ℚ) * (58 / 100)) : ℤ)
      let labels : List (String × String) :=
        [("Open", "$" ++ toString d.openPrice),
         ("High", "$" ++ toString d.high),
         ("Low", "$" ++ toString d.low),
         ("Vol", toString (d.volume / 1000000) ++ "M")]
      let label_x := col_x_start + ((pyInt ((width : ℚ) * (25 / 1000)) : ℤ) : ℚ)
      let value_x := col_x_start + ((pyInt ((width : ℚ) * (175 / 1000)) : ℤ) : ℚ)
      let row_height : ℚ := (pyInt ((height : ℚ) * (10 / 100)) : ℤ)
      [DrawPrim.fill c_bg,
       DrawPrim.text (margin_x, margin_y) ticker c_text_main,
       DrawPrim.text ((width : ℚ) - time_width - margin_x,
           ((pyInt ((height : ℚ) * (6 / 100)) : ℤ) : ℚ)) now_str c_dim,
       DrawPrim.text (margin_x, ((pyInt ((height : ℚ) * (20 / 100)) : ℤ) : ℚ))
         ("$" ++ toString current_price) c_text_main,
       DrawPrim.text (margin_x, ((pyInt ((height : ℚ) * (45 / 100)) : ℤ) : ℚ))
         change_str c_accent,
       DrawPrim.line (col_x_start, details_y_start) (col_x_start, details_y_end)
         c_grid 3]
      ++ (pyEnum labels).flatMap (fun il =>
           [DrawPrim.text (label_x, details_y_start + (il.1 : ℚ) * row_height)
              il.2.1 c_dim,
            DrawPrim.text (value_x, details_y_start + (il.1 : ℚ) * row_height)
              il.2.2 c_text_main])
      ++ chartPrims d.history prev_close width height

/-! Basic lemmas about `map_range`. -/

theorem map_range_of_ne (v a b o1 o2 : ℚ) (h : a ≠ b) :
    map_range v a b o1 o2 = (v - a) * (o2 - o1) / (b - a) + o1 := by
  unfold map_range
  rw [if_neg (fun hh => h hh.symm)]

theorem map_range_left_boundary (a b o1 o2 : ℚ) (h : a ≠ b) :
    map_range a a b o1 o2 = o1 := by
  rw [map_range_of_ne _ _ _ _ _ h, sub_self, zero_mul, zero_div, zero_add]

theorem map_range_right_boundary (a b o1 o2 : ℚ) (h : a ≠ b) :
    map_range b a b o1 o2 = o2 := by
  have hba : b - a ≠ 0 := sub_ne_zero.2 (Ne.symm h)
  rw [map_range_of_ne _ _ _ _ _ h, mul_comm, mul_div_assoc, div_self hba, mul_one]
  ring

/-- If the value sits strictly right of the left input endpoint and the output
range is descending, the image sits strictly below the left output endpoint. -/
theorem map_range_lt_out_min (v a b o1 o2 : ℚ)
    (hab : a < b) (hout : o2 < o1) (hv : a < v) :
    map_range v a b o1 o2 < o1 := by
  rw [map_range_of_ne _ _ _ _ _ (ne_of_lt hab)]
  have hnum : (v - a) * (o2 - o1) < 0 :=
    mul_neg_of_pos_of_neg (by linarith) (by linarith)
  have hden : (0 : ℚ) < b - a := by linarith
  have := div_neg_of_neg_of_pos hnum hden
  linarith

/-- If the value sits strictly left of the right input endpoint and the output
range is descending, the image sits strictly above the right output endpoint. -/
theorem map_range_gt_out_max (v a b o1 o2 : ℚ)
    (hab : a < b) (hout : o2 < o1) (hv : v < b) :
    o2 < map_range v a b o1 o2 := by
  rw [map_range_of_ne _ _ _ _ _ (ne_of_lt hab)]
  have hden : (0 : ℚ) < b - a := by linarith
  rw [show o2 < (v - a) * (o2 - o1) / (b - a) + o1 ↔
        o2 - o1 < (v - a) * (o2 - o1) / (b - a) by constructor <;> intro <;> linarith]
  rw [lt_div_iff₀ hden]
  nlinarith [mul_nonneg (sub_nonneg.2 (le_of_lt hv)) (sub_nonneg.2 (le_of_lt hout))]

/-- For a value inside the input range, the image lies between the two output
endpoints (in either orientation). -/
theorem map_range_mem_bounds (v a b o1 o2 : ℚ)
    (h1 : a ≤ v) (h2 : v ≤ b) :
    min o1 o2 ≤ map_range v a b o1 o2 ∧ map_range v a b o1 o2 ≤ max o1 o2 := by
  rcases eq_or_lt_of_le (le_trans h1 h2) with hab | hab
  · unfold map_range
    rw [if_pos hab.symm]
    constructor
    · rcases le_total o1 o2 with h | h
      · rw [min_eq_left h]; linarith
      · rw [min_eq_right h]; linarith
    · rcases le_total o1 o2 with h | h
      · rw [max_eq_right h]; linarith
      · rw [max_eq_left h]; linarith
  · rw [map_range_of_ne _ _ _ _ _ (ne_of_lt hab)]
    have hden : (0 : ℚ) < b - a := by linarith
    constructor
    · rcases le_total o1 o2 with h | h
      · rw [min_eq_left h]
        have : (0 : ℚ) ≤ (v - a) * (o2 - o1) := by nlinarith
        have := div_nonneg this (le_of_lt hden)
        linarith
      · rw [min_eq_right h]
        have hk : (o2 - o1) * (b - a) ≤ (v - a) * (o2 - o1) := by nlinarith
        have := (le_div_iff₀ hden).2 hk
        linarith
    · rcases le_total o1 o2 with h | h
      · rw [max_eq_right h]
        have hk : (v - a) * (o2 - o1) ≤ (o2 - o1) * (b - a) := by nlinarith
        have := (div_le_iff₀ hden).2 hk
        linarith
      · rw [max_eq_left h]
        have : (v - a) * (o2 - o1) ≤ 0 := by nlinarith
        have := div_nonpos_of_nonpos_of_nonneg this (le_of_lt hden)
        linarith

/-- C5: `map_range` returns the output midpoint whenever `in_min == in_max`
(for every value), and otherwise the standard linear interpolation; it agrees
pointwise with the Range Mapper contract as worded in the spec, and is a
total function over all rational inputs. -/
theorem map_range_matches_spec (v a b o1 o2 : ℚ) :
    map_range v a b o1 o2 = map_range_spec v a b o1 o2 ∧
    (a = b → map_range v a b o1 o2 = (o1 + o2) / 2) ∧
    (a ≠ b → map_range v a b o1 o2 = (v - a) * (o2 - o1) / (b - a) + o1) := by
  refine ⟨?_, ?_, ?_⟩
  · unfold map_range map_range_spec
    by_cases h : a = b
    · rw [if_pos h.symm, if_pos h]
    · rw [if_neg (fun hh => h hh.symm), if_neg h]
  · intro h
    unfold map_range
    rw [if_pos h.symm]
  · intro h
    exact map_range_of_ne _ _ _ _ _ h

theorem map_range_matches_spec_witness :
    map_range 7 2 2 0 10 = 5 ∧ map_range 3 1 5 0 8 = 4 := by
  have h1 := (map_range_matches_spec 7 2 2 0 10).2.1 rfl
  have h2 := (map_range_matches_spec 3 1 5 0 8).2.2 (by norm_num)
  constructor
  · rw [h1]; norm_num
  · rw [h2]; norm_num

/-- C6: for a non-degenerate input range, `map_range` maps the input
endpoints exactly to the corresponding output endpoints. -/
theorem map_range_boundary_exact (a b o1 o2 : ℚ) (h : a ≠ b) :
    map_range a a b o1 o2 = o1 ∧ map_range b a b o1 o2 = o2 :=
  ⟨map_range_left_boundary a b o1 o2 h, map_range_right_boundary a b o1 o2 h⟩

theorem map_range_boundary_exact_witness :
    map_range 1 1 5 10 90 = 10 ∧ map_range 5 1 5 10 90 = 90 :=
  map_range_boundary_exact 1 5 10 90 (by norm_num)

/-- C10: the change amount is `price - prev_close`; the change percentage is
`0` when the previous close is `0` (no division by zero), and
`(change / prev_close) * 100` whenever the previous close is nonzero. -/
theorem change_pct_no_div_by_zero (price prev_close : ℚ) :
    changeAmt price prev_close = price - prev_close ∧
    changePct price 0 = 0 ∧
    (prev_close ≠ 0 →
      changePct price prev_close = changeAmt price prev_close / prev_close * 100) := by
  refine ⟨rfl, ?_, ?_⟩
  · unfold changePct
    rw [if_neg (by simp)]
  · intro h
    unfold changePct
    rw [if_pos h]

theorem change_pct_no_div_by_zero_witness :
    changeAmt 5 2 = 3 ∧ changePct 5 0 = 0 ∧ changePct 5 2 = 150 := by
  have h := change_pct_no_div_by_zero 5 2
  refine ⟨by rw [h.1]; norm_num, h.2.1, ?_⟩
  rw [h.2.2 (by norm_num), h.1]
  norm_num

/-- C2 counterexample: the pair `(0,100),(1,150)` with `y_base = 100` has an
endpoint whose y coordinate exactly equals `y_base`, yet the classifier emits
a single segment colored down, not up (the bearish branch fires). -/
theorem classify_equal_endpoint_not_up :
    classifySegment 0 100 1 150 100 = [((0, 100), (1, 150), c_down)] ∧
    c_down ≠ c_up := by
  constructor
  · unfold classifySegment
    rw [if_neg (by norm_num), if_pos (by norm_num)]
  · decide

/-- C2 (amended): whenever the bullish predicate `y1 ≤ y_base ∧ y2 ≤ y_base`
and the bearish predicate `y1 ≥ y_base ∧ y2 ≥ y_base` hold simultaneously
(which forces `y1 = y2 = y_base`), the classifier emits a single segment
colored up, because case 1 is checked before case 2. -/
theorem classify_tie_resolves_up (x1 y1 x2 y2 y_base : ℚ)
    (hb : y1 ≤ y_base ∧ y2 ≤ y_base) (hr : y1 ≥ y_base ∧ y2 ≥ y_base) :
    y1 = y_base ∧ y2 = y_base ∧
    classifySegment x1 y1 x2 y2 y_base = [((x1, y1), (x2, y2), c_up)] := by
  refine ⟨le_antisymm hb.1 hr.1, le_antisymm hb.2 hr.2, ?_⟩
  unfold classifySegment
  rw [if_pos hb]

theorem classify_tie_resolves_up_witness :
    classifySegment 0 100 1 100 100 = [((0, 100), (1, 100), c_up)] :=
  (classify_tie_resolves_up 0 100 1 100 100
    ⟨by norm_num, by norm_num⟩ ⟨by norm_num, by norm_num⟩).2.2

/-- C3 counterexample: on the defensive `y2 == y1` branch the code sets
`x_cross = x1, y_cross = y1`, i.e. the FIRST point's position, not the second
point's position `(x2, y2)` as the spec states: at
`x1 = 0, y1 = 5, x2 = 10, y2 = 5` it returns `(0, 5)`, not `(10, 5)`. -/
theorem crossing_fallback_not_second_point :
    crossingPoint 0 5 10 5 3 = (0, 5) ∧
    crossingPoint 0 5 10 5 3 ≠ ((10 : ℚ), (5 : ℚ)) := by
  constructor
  · unfold crossingPoint
    rw [if_neg (by norm_num)]
  · unfold crossingPoint
    rw [if_neg (by norm_num)]
    decide

/-- C3 (amended): inside the crossing branch `y1 = y2` is structurally
unreachable (equal y's satisfy case 1 or case 2), and if the condition were
encountered the code defensively falls back to treating the FIRST point's
position `(x1, y1)` as the crossing point, without crashing. -/
theorem crossing_branch_defensive (x1 y1 x2 y2 y_base : ℚ) :
    (¬(y1 ≤ y_base ∧ y2 ≤ y_base) → ¬(y1 ≥ y_base ∧ y2 ≥ y_base) → y1 ≠ y2) ∧
    (y1 = y2 → crossingPoint x1 y1 x2 y2 y_base = (x1, y1)) := by
  constructor
  · intro h1 h2 heq
    rcases le_or_lt y1 y_base with h | h
    · exact h1 ⟨h, heq ▸ h⟩
    · exact h2 ⟨le_of_lt h, heq ▸ le_of_lt h⟩
  · intro heq
    unfold crossingPoint
    rw [if_neg (by simp [heq])]

theorem crossing_branch_defensive_witness :
    (50 : ℚ) ≠ 150 ∧ crossingPoint 0 5 10 5 3 = (0, 5) :=
  ⟨(crossing_branch_defensive 0 50 10 150 100).1 (by norm_num) (by norm_num),
   (crossing_branch_defensive 0 5 10 5 3).2 rfl⟩

/-- C1: whenever an adjacent pair falls into the crossing branch (neither
entirely bullish nor entirely bearish), the classifier computes
`ratio = (y_base - y1) / (y2 - y1)`, `x_cross = x1 + (x2 - x1) * ratio`,
uses `(x_cross, y_base)` as the crossing point, and emits exactly the two
sub-segments `(x1,y1)-(x_cross,y_base)` and `(x_cross,y_base)-(x2,y2)`,
the first colored up iff `y1 < y_base` and the second colored up iff
`y2 < y_base`. -/
theorem classify_crossing_branch (x1 y1 x2 y2 y_base : ℚ)
    (h1 : ¬(y1 ≤ y_base ∧ y2 ≤ y_base)) (h2 : ¬(y1 ≥ y_base ∧ y2 ≥ y_base)) :
    classifySegment x1 y1 x2 y2 y_base =
      [((x1, y1), (x1 + (x2 - x1) * ((y_base - y1) / (y2 - y1)), y_base),
        endColor y1 y_base),
       ((x1 + (x2 - x1) * ((y_base - y1) / (y2 - y1)), y_base), (x2, y2),
        endColor y2 y_base)] ∧
    (endColor y1 y_base = c_up ↔ y1 < y_base) ∧
    (endColor y2 y_base = c_up ↔ y2 < y_base) := by
  have hne : y2 ≠ y1 :=
    fun heq => (crossing_branch_defensive x1 y1 x2 y2 y_base).1 h1 h2 heq.symm
  refine ⟨?_, ?_, ?_⟩
  · unfold classifySegment crossingPoint
    rw [if_neg h1, if_neg h2, if_pos hne]
  · unfold endColor
    by_cases h : y1 < y_base
    · simp [h]
    · rw [if_neg h]
      simp only [h, iff_false]
      decide
  · unfold endColor
    by_cases h : y2 < y_base
    · simp [h]
    · rw [if_neg h]
      simp only [h, iff_false]
      decide

theorem classify_crossing_branch_witness :
    classifySegment 0 50 10 150 100 =
      [((0, 50), (5, 100), c_up), ((5, 100), (10, 150), c_down)] ∧
    (100 - 50) / ((150 : ℚ) - 50) = 1 / 2 := by
  have h := classify_crossing_branch 0 50 10 150 100 (by norm_num) (by norm_num)
  constructor
  · rw [h.1]
    norm_num [endColor]
  · norm_num

/-! Lemmas about the list helpers. -/

theorem listMin_mem (l : List ℚ) (h : l ≠ []) : listMin l ∈ l := by
  induction l with
  | nil => exact absurd rfl h
  | cons a t ih =>
    cases t with
    | nil => simp [listMin]
    | cons b t2 =>
      simp only [listMin]
      rcases le_total a (listMin (b :: t2)) with hle | hle
      · rw [min_eq_left hle]; exact List.mem_cons_self a _
      · rw [min_eq_right hle]
        exact List.mem_cons_of_mem a (ih (by simp))

theorem listMax_mem (l : List ℚ) (h : l ≠ []) : listMax l ∈ l := by
  induction l with
  | nil => exact absurd rfl h
  | cons a t ih =>
    cases t with
    | nil => simp [listMax]
    | cons b t2 =>
      simp only [listMax]
      rcases le_total a (listMax (b :: t2)) with hle | hle
      · rw [max_eq_right hle]
        exact List.mem_cons_of_mem a (ih (by simp))
      · rw [max_eq_left hle]; exact List.mem_cons_self a _

theorem listMin_le (l : List ℚ) : ∀ a ∈ l, listMin l ≤ a := by
  induction l with
  | nil => intro a ha; cases ha
  | cons x t ih =>
    intro a ha
    cases t with
    | nil =>
      rw [List.mem_singleton] at ha
      subst ha; simp [listMin]
    | cons b t2 =>
      simp only [listMin]
      rcases List.mem_cons.1 ha with h | h
      · subst h; exact min_le_left _ _
      · exact le_trans (min_le_right _ _) (ih a h)

theorem le_listMax (l : List ℚ) : ∀ a ∈ l, a ≤ listMax l := by
  induction l with
  | nil => intro a ha; cases ha
  | cons x t ih =>
    intro a ha
    cases t with
    | nil =>
      rw [List.mem_singleton] at ha
      subst ha; simp [listMax]
    | cons b t2 =>
      simp only [listMax]
      rcases List.mem_cons.1 ha with h | h
      · subst h; exact le_max_left _ _
      · exact le_trans (ih a h) (le_max_right _ _)

theorem pyLast_mem {α : Type} [Inhabited α] (l : List α) (h : l ≠ []) :
    pyLast l ∈ l := by
  induction l with
  | nil => exact absurd rfl h
  | cons a t ih =>
    cases t with
    | nil => simp [pyLast]
    | cons b t2 =>
      simp only [pyLast]
      exact List.mem_cons_of_mem a (ih (by simp))

theorem snd_mem_of_mem_pyEnumFrom {α : Type} (l : List α) :
    ∀ (n : ℕ) (ip : ℕ × α), ip ∈ pyEnumFrom n l → ip.2 ∈ l := by
  induction l with
  | nil => intro n ip h; simp [pyEnumFrom] at h
  | cons a t ih =>
    intro n ip h
    simp only [pyEnumFrom, List.mem_cons] at h
    rcases h with h | h
    · subst h; exact List.mem_cons_self a t
    · exact List.mem_cons_of_mem a (ih (n + 1) ip h)

/-- Every projected point's y coordinate is the vertical mapping of some
history value. -/
theorem projectPoints_snd (history : List ℚ) (min_p max_p cxs cxe cys cye : ℚ) :
    ∀ q ∈ projectPoints history min_p max_p cxs cxe cys cye,
      ∃ p ∈ history, q.2 = map_range p min_p max_p cye cys := by
  intro q hq
  simp only [projectPoints, pyEnum, List.mem_map] at hq
  obtain ⟨ip, hip, hq⟩ := hq
  exact ⟨ip.2, snd_mem_of_mem_pyEnumFrom history 0 ip hip, by rw [← hq]⟩

/-- If every point sits on or above the baseline row, every emitted segment
is colored up. -/
theorem segmentsOf_all_up (points : List (ℚ × ℚ)) (y_base : ℚ)
    (h : ∀ q ∈ points, q.2 ≤ y_base) :
    ∀ s ∈ segmentsOf points y_base, s.2.2 = c_up := by
  intro s hs
  simp only [segmentsOf, List.mem_flatMap] at hs
  obtain ⟨pr, hpr, hs⟩ := hs
  have h12 := List.of_mem_zip hpr
  have hy1 := h pr.1 h12.1
  have hy2 := h pr.2 (List.mem_of_mem_tail h12.2)
  unfold classifySegment at hs
  rw [if_pos ⟨hy1, hy2⟩] at hs
  rw [List.mem_singleton] at hs
  rw [hs]

/-- If every point sits strictly below the baseline row, every emitted
segment is colored down. -/
theorem segmentsOf_all_down (points : List (ℚ × ℚ)) (y_base : ℚ)
    (h : ∀ q ∈ points, y_base < q.2) :
    ∀ s ∈ segmentsOf points y_base, s.2.2 = c_down := by
  intro s hs
  simp only [segmentsOf, List.mem_flatMap] at hs
  obtain ⟨pr, hpr, hs⟩ := hs
  have h12 := List.of_mem_zip hpr
  have hy1 := h pr.1 h12.1
  have hy2 := h pr.2 (List.mem_of_mem_tail h12.2)
  unfold classifySegment at hs
  rw [if_neg (fun hc => absurd hc.1 (not_le.2 hy1)),
      if_pos ⟨le_of_lt hy1, le_of_lt hy2⟩] at hs
  rw [List.mem_singleton] at hs
  rw [hs]

/-- C4: the Series Normalizer returns `(min(min(history), baseline),
max(max(history), baseline))`, hence `min ≤ baseline ≤ max` and
`min ≤ v ≤ max` for every history value, and the Baseline Locator lands
within the chart rectangle's vertical bounds. -/
theorem normalize_range_bounds (history : List ℚ) (baseline : ℚ) (height : ℤ)
    (_hne : history ≠ []) (hh : 0 ≤ height) :
    (normalizeRange history baseline).1 = min (listMin history) baseline ∧
    (normalizeRange history baseline).2 = max (listMax history) baseline ∧
    (normalizeRange history baseline).1 ≤ baseline ∧
    baseline ≤ (normalizeRange history baseline).2 ∧
    (∀ v ∈ history,
      (normalizeRange history baseline).1 ≤ v ∧
      v ≤ (normalizeRange history baseline).2) ∧
    chartYStart height ≤
      baselineY baseline (normalizeRange history baseline).1
        (normalizeRange history baseline).2 (chartYStart height)
        (chartYEnd height) ∧
    baselineY baseline (normalizeRange history baseline).1
        (normalizeRange history baseline).2 (chartYStart height)
        (chartYEnd height) ≤ chartYEnd height := by
  have hq : (0 : ℚ) ≤ (height : ℚ) := by exact_mod_cast hh
  have f1 : ((⌊(height : ℚ) * (625 / 1000)⌋ : ℤ) : ℚ) ≤ (height : ℚ) * (625 / 1000) :=
    Int.floor_le _
  have f2 : ((⌊(height : ℚ) * (8 / 100)⌋ : ℤ) : ℚ) ≤ (height : ℚ) * (8 / 100) :=
    Int.floor_le _
  have hys : chartYStart height ≤ chartYEnd height := by
    unfold chartYStart chartYEnd pyInt
    linarith
  have hmn : (normalizeRange history baseline).1 ≤ baseline := min_le_right _ _
  have hmx : baseline ≤ (normalizeRange history baseline).2 := le_max_right _ _
  have hbounds := map_range_mem_bounds baseline
    (normalizeRange history baseline).1 (normalizeRange history baseline).2
    (chartYEnd height) (chartYStart height) hmn hmx
  refine ⟨rfl, rfl, hmn, hmx, ?_, ?_, ?_⟩
  · intro v hv
    exact ⟨le_trans (min_le_left _ _) (listMin_le history v hv),
           le_trans (le_listMax history v hv) (le_max_left _ _)⟩
  · unfold baselineY
    rw [min_eq_right hys] at hbounds
    exact hbounds.1
  · unfold baselineY
    rw [max_eq_left hys] at hbounds
    exact hbounds.2

theorem normalize_range_bounds_witness :
    (normalizeRange [1, 3] 2).1 = min (listMin [1, 3]) 2 ∧
    (normalizeRange [1, 3] 2).2 = max (listMax [1, 3]) 2 ∧
    (normalizeRange [1, 3] 2).1 ≤ 2 ∧
    2 ≤ (normalizeRange [1, 3] 2).2 ∧
    (∀ v ∈ ([1, 3] : List ℚ),
      (normalizeRange [1, 3] 2).1 ≤ v ∧ v ≤ (normalizeRange [1, 3] 2).2) ∧
    chartYStart 480 ≤
      baselineY 2 (normalizeRange [1, 3] 2).1 (normalizeRange [1, 3] 2).2
        (chartYStart 480) (chartYEnd 480) ∧
    baselineY 2 (normalizeRange [1, 3] 2).1 (normalizeRange [1, 3] 2).2
        (chartYStart 480) (chartYEnd 480) ≤ chartYEnd 480 :=
  normalize_range_bounds [1, 3] 2 480 (by simp) (by norm_num)

/-- C7: with a history of length 0 or 1 the entire chart section is skipped —
no chart primitives at all — and the full rendered image contains no ellipse;
rendering is a total function, so degenerate inputs never raise. -/
theorem chart_skipped_short_history (d : StockData) (width height : ℤ)
    (ticker now_str : String) (time_width : ℚ)
    (hlen : d.history.length ≤ 1) :
    chartPrims d.history d.prev_close width height = [] ∧
    ∀ p ∈ generateImage (some d) width height ticker now_str time_width,
      p.isEllipse = false := by
  have hchart : chartPrims d.history d.prev_close width height = [] := by
    unfold chartPrims
    rw [if_neg (by omega)]
  refine ⟨hchart, ?_⟩
  intro p hp
  simp only [generateImage, hchart, pyEnum, pyEnumFrom, List.flatMap_cons,
    List.flatMap_nil, List.append_nil, List.mem_append, List.mem_cons,
    List.not_mem_nil, or_false] at hp
  casesm* _ ∨ _ <;> subst_vars <;> rfl

theorem chart_skipped_short_history_witness :
    chartPrims [5] 90 800 480 = [] ∧
    ∀ p ∈ generateImage (some ⟨100, 90, 1, 2, 3, 4, [5]⟩) 800 480 "T" "M" 10,
      p.isEllipse = false :=
  chart_skipped_short_history ⟨100, 90, 1, 2, 3, 4, [5]⟩ 800 480 "T" "M" 10
    (by decide)

/-- C8: when the fetch signals unavailable, the render is exactly the
background fill plus one error text in the failure color `c_down` — no line,
no ellipse, no dashboard element — returned as an ordinary value. -/
theorem fallback_image_on_fetch_failure (width height : ℤ)
    (ticker now_str : String) (time_width : ℚ) :
    generateImage none width height ticker now_str time_width =
      [DrawPrim.fill c_bg,
       DrawPrim.text (20, ((height / 2 : ℤ) : ℚ))
         ("Failed to fetch data for " ++ ticker) c_down] ∧
    (generateImage none width height ticker now_str time_width).filter
      (fun p => p.isEllipse || p.isLine) = [] :=
  ⟨rfl, rfl⟩

/-- C9: a strictly increasing history of length ≥ 2 entirely strictly above
the baseline yields only up-colored segments and an up end marker; a history
entirely strictly below the baseline yields only down-colored segments and a
down marker; in general the marker is up exactly when the final price is
greater than or equal to the baseline. -/
theorem monotone_history_colors (hist : List ℚ) (base xs xe ys ye : ℚ)
    (hlen : 2 ≤ hist.length) (hys : ys < ye) :
    (List.Chain' (· < ·) hist → (∀ p ∈ hist, base < p) →
      ((∀ s ∈ segmentsOf
            (projectPoints hist (min (listMin hist) base)
              (max (listMax hist) base) xs xe ys ye)
            (baselineY base (min (listMin hist) base)
              (max (listMax hist) base) ys ye),
          s.2.2 = c_up) ∧
        dotColor hist base = c_up)) ∧
    (List.Chain' (· < ·) hist → (∀ p ∈ hist, p < base) →
      ((∀ s ∈ segmentsOf
            (projectPoints hist (min (listMin hist) base)
              (max (listMax hist) base) xs xe ys ye)
            (baselineY base (min (listMin hist) base)
              (max (listMax hist) base) ys ye),
          s.2.2 = c_down) ∧
        dotColor hist base = c_down)) ∧
    (dotColor hist base = c_up ↔ base ≤ pyLast hist) := by
  have hne : hist ≠ [] := List.ne_nil_of_length_pos (by omega)
  refine ⟨?_, ?_, ?_⟩
  · intro _hchain habove
    have hminpos : base < listMin hist := habove _ (listMin_mem hist hne)
    have hmaxpos : base < listMax hist := habove _ (listMax_mem hist hne)
    have hmn : min (listMin hist) base = base := min_eq_right (le_of_lt hminpos)
    have hmx : max (listMax hist) base = listMax hist :=
      max_eq_left (le_of_lt hmaxpos)
    rw [hmn, hmx]
    have hyb : baselineY base base (listMax hist) ys ye = ye := by
      unfold baselineY
      exact map_range_left_boundary base (listMax hist) ye ys (ne_of_lt hmaxpos)
    rw [hyb]
    constructor
    · apply segmentsOf_all_up
      intro q hq
      obtain ⟨p, hp, hq2⟩ :=
        projectPoints_snd hist base (listMax hist) xs xe ys ye q hq
      rw [hq2]
      exact le_of_lt
        (map_range_lt_out_min p base (listMax hist) ye ys hmaxpos hys
          (habove p hp))
    · unfold dotColor
      rw [if_pos (le_of_lt (habove _ (pyLast_mem hist hne)))]
  · intro _hchain hbelow
    have hminneg : listMin hist < base := hbelow _ (listMin_mem hist hne)
    have hmaxneg : listMax hist < base := hbelow _ (listMax_mem hist hne)
    have hmn : min (listMin hist) base = listMin hist :=
      min_eq_left (le_of_lt hminneg)
    have hmx : max (listMax hist) base = base := max_eq_right (le_of_lt hmaxneg)
    rw [hmn, hmx]
    have hyb : baselineY base (listMin hist) base ys ye = ys := by
      unfold baselineY
      exact map_range_right_boundary (listMin hist) base ye ys
        (ne_of_lt hminneg)
    rw [hyb]
    constructor
    · apply segmentsOf_all_down
      intro q hq
      obtain ⟨p, hp, hq2⟩ :=
        projectPoints_snd hist (listMin hist) base xs xe ys ye q hq
      rw [hq2]
      exact map_range_gt_out_max p (listMin hist) base ye ys hminneg hys
        (hbelow p hp)
    · unfold dotColor
      rw [if_neg (not_le.2 (hbelow _ (pyLast_mem hist hne)))]
  · unfold dotColor
    by_cases h : pyLast hist ≥ base
    · rw [if_pos h]
      exact ⟨fun _ => h, fun _ => rfl⟩
    · rw [if_neg h]
      exact ⟨fun hc => absurd hc (by decide), fun hb => absurd hb h⟩

theorem monotone_history_colors_witness :
    ((∀ s ∈ segmentsOf
          (projectPoints [1, 2] (min (listMin [1, 2]) 0)
            (max (listMax [1, 2]) 0) 0 10 0 10)
          (baselineY 0 (min (listMin [1, 2]) 0) (max (listMax [1, 2]) 0) 0 10),
        s.2.2 = c_up) ∧
      dotColor [1, 2] 0 = c_up) ∧
    (dotColor [1, 2] 0 = c_up ↔ (0 : ℚ) ≤ pyLast [1, 2]) := by
  have h := monotone_history_colors [1, 2] 0 0 10 0 10 (by decide) (by norm_num)
  exact ⟨h.1 (by norm_num [List.chain'_cons]) (by decide), h.2.2⟩
